import Mathlib

/-!
Verification of the substitution-based tokenizer of the Sage compiler
(`src/Compiler/Source/Lexer/Analyzer.{h,cpp}`), shallowly embedded in Lean.

Modelling notes.
* A line of text is a `List Char`; lines handed to the loop by `std::getline`
  never contain the delimiter `'\n'`, so an input file is modelled as the
  list of its delimiter-stripped lines, and `none` models a file that cannot
  be opened.
* `Analyzer::tokens` is declared `std::unordered_map<std::string, std::string>`.
  The entries it holds after `GenerateTokens` are exactly the pairs of the
  initializer list (written here, in written order, as `GenerateTokens`), but
  the order in which the range-for loop of `Read` iterates them is
  implementation-defined.  The model therefore threads the iteration order as
  an explicit parameter `order`, and theorems about the program quantify over
  every `order` that is a permutation of `GenerateTokens`; the written order
  itself is one such conforming order.
* The inner `while (position = m_Line.find(...))` / `replace` / `position +=
  token.second.length()` loop scans left to right, replaces each
  non-overlapping occurrence and resumes immediately after the inserted
  replacement text.  `applyRuleGo p ps sub skip line` is that scan: `skip`
  counts input characters still to be copied-over, which is how the model
  expresses "resume after the just-consumed pattern occurrence" while staying
  structurally recursive (the inserted replacement is emitted directly to the
  output and is never rescanned, exactly as the C++ loop never rescans it
  within the same rule's pass).
-/

namespace Sage

/-- A substitution rule: `(pattern, symbol)`, both plain character lists. -/
abbrev Rule := List Char × List Char

/-- The scan of one rule's pass over one line, as performed by the inner
`find`/`replace` loop of `Analyzer::Read`.  With `skip = 0` the scan looks for
the pattern `p :: ps` at the current position; on a match it emits `sub` and
consumes the occurrence (the `skip` argument), on a mismatch it copies one
character and moves on. -/
def applyRuleGo (p : Char) (ps sub : List Char) : Nat → List Char → List Char
  | _, [] => []
  | n + 1, _ :: cs => applyRuleGo p ps sub n cs
  | 0, c :: cs =>
    if (p :: ps) <+: (c :: cs) then
      sub ++ applyRuleGo p ps sub ps.length cs
    else
      c :: applyRuleGo p ps sub 0 cs

/-- One full pass of a single rule over a line (`for` body of the token loop
in `Analyzer::Read`).  A rule with an empty pattern never occurs in the table;
for it the pass is modelled as the identity. -/
def applyRule (line : List Char) (r : Rule) : List Char :=
  match r.1 with
  | [] => line
  | p :: ps => applyRuleGo p ps r.2 0 line

/-- The token loop of `Analyzer::Read`: every rule applied in iteration order,
each pass working on the output of the previous one. -/
def applyRules (rules : List Rule) (line : List Char) : List Char :=
  rules.foldl applyRule line

/-- The rule table exactly as written in `Analyzer::GenerateTokens`, in the
order of the initializer list.  The C++ member that stores it is a
`std::unordered_map`, so this written order is only one of the orders the
substitution loop may iterate. -/
def GenerateTokens : List Rule :=
  [ (" ".data, "@WHITESPACE@".data),
    ("\n".data, "@NEW_LINE@".data),
    ("\t".data, "@TAB@".data),
    (";".data, "@SEMICOLON@".data),
    ("(".data, "@PARENTHESIS_BEGIN@".data),
    (")".data, "@PARENTHESIS_END@".data),
    ("\x7b".data, "@BRACKET_BEGIN@".data),
    ("\x7d".data, "@BRACKET_END@".data),
    ("<".data, "@OPERATOR_LESS@".data),
    (">".data, "@OPERATOR_GREATER@".data),
    ("=".data, "@OPERATOR_ASSIGN@".data),
    ("->".data, "@OPERATOR_ARROW@".data),
    ("::".data, "@OPERATOR_SCOPE@".data),
    ("&&".data, "@OPERATOR_AND@".data),
    ("||".data, "@OPERATOR_OR@".data),
    ("<<".data, "@SHIFT_LEF@".data),
    (">>".data, "@SHIFT_RIGHT@".data),
    ("+".data, "@PLUS@".data),
    ("-".data, "@MINUS@".data),
    ("*".data, "@MULTIPLY@".data),
    ("/".data, "@DIVIDE@".data),
    ("class".data, "@CLASS@".data),
    ("define".data, "@DEFINE@".data),
    ("delete".data, "@DELETE@".data),
    ("fn".data, "@FUNCTION@".data),
    ("Main".data, "@ENTRY_POINT@".data),
    ("new".data, "@NEW@".data),
    ("return".data, "@RETURN@".data),
    ("use".data, "@INCLUDE@".data),
    ("f32".data, "@FLOAT_32@".data),
    ("f64".data, "@FLOAT_64@".data),
    ("i8".data, "@INTEGER_8@".data),
    ("i16".data, "@INTEGER_16@".data),
    ("i32".data, "@INTEGER_32@".data),
    ("i64".data, "@INTEGER_64@".data),
    ("u8".data, "@UNSIGNED_INTEGER_8@".data),
    ("u16".data, "@UNSIGNED_INTEGER_16@".data),
    ("u32".data, "@UNSIGNED_INTEGER_32@".data),
    ("u64".data, "@UNSIGNED_INTEGER_64@".data),
    ("str".data, "@STRING@".data) ]

/-- The observable state of an `Analyzer` object: the recorded path, the rule
table (in the iteration order the member container exposes), and the command
buffer.  The raw stream handles of the C++ object carry no further observable
state. -/
structure Analyzer where
  fileName : String
  tokens : List Rule
  m_CommandBuffer : List (List Char)
deriving DecidableEq

/-- A freshly constructed `Analyzer` (default-constructed members). -/
def initAnalyzer : Analyzer :=
  { fileName := "", tokens := [], m_CommandBuffer := [] }

/-- The `while (std::getline(...))` loop of `Analyzer::Read`: substitute every
rule into the line and push the result onto the buffer when it is non-empty. -/
def readLoop (order : List Rule) : List (List Char) → List (List Char) → List (List Char)
  | buf, [] => buf
  | buf, l :: ls =>
    readLoop order
      (if 0 < (applyRules order l).length then buf ++ [applyRules order l] else buf) ls

/-- `Analyzer::Read`.  The attempted path is recorded first; if the file does
not open the method returns `false` at once, otherwise the rule table is
(re)generated — its iteration order modelled by `order` — and each line is
processed in file order. -/
def Read (a : Analyzer) (filePath : String) (file : Option (List (List Char)))
    (order : List Rule) : Bool × Analyzer :=
  match file with
  | none => (false, { a with fileName := filePath })
  | some lines =>
    (true,
      { a with
          fileName := filePath
          tokens := order
          m_CommandBuffer := readLoop order a.m_CommandBuffer lines })

/-- The output loop of `Analyzer::Write`: each buffer entry followed by
`std::endl`. -/
def writeLoop : List (List Char) → List Char → List Char
  | [], out => out
  | c :: cs, out => writeLoop cs (out ++ c ++ ['\n'])

/-- `Analyzer::Write`.  `canCreate` models whether the output stream opened;
on success the produced file text is returned alongside the (unchanged)
analyzer state. -/
def Write (a : Analyzer) (canCreate : Bool) : Bool × Analyzer × List Char :=
  if canCreate then (true, a, writeLoop a.m_CommandBuffer []) else (false, a, [])

/-- Splitting a produced file text back into its lines (each line terminator
closes one line), used to state the round-trip shape of `Write`. -/
def splitLinesGo (cur : List Char) : List Char → List (List Char)
  | [] => if cur.isEmpty then [] else [cur]
  | c :: cs => if c = '\n' then cur :: splitLinesGo [] cs else splitLinesGo (cur ++ [c]) cs

/-- The lines of a file text. -/
def splitLines (t : List Char) : List (List Char) :=
  splitLinesGo [] t

/-! ### Basic equations of the scan -/

lemma applyRuleGo_nil (p : Char) (ps sub : List Char) (n : Nat) :
    applyRuleGo p ps sub n [] = [] := by
  cases n <;> rfl

lemma applyRuleGo_succ (p : Char) (ps sub : List Char) (n : Nat) (c : Char) (cs : List Char) :
    applyRuleGo p ps sub (n + 1) (c :: cs) = applyRuleGo p ps sub n cs := rfl

lemma applyRuleGo_zero_cons (p : Char) (ps sub : List Char) (c : Char) (cs : List Char) :
    applyRuleGo p ps sub 0 (c :: cs) =
      if (p :: ps) <+: (c :: cs) then sub ++ applyRuleGo p ps sub ps.length cs
      else c :: applyRuleGo p ps sub 0 cs := rfl

lemma applyRuleGo_skip (p : Char) (ps sub : List Char) :
    ∀ (l : List Char) (n : Nat),
      applyRuleGo p ps sub n l = applyRuleGo p ps sub 0 (l.drop n) := by
  intro l
  induction l with
  | nil => intro n; rw [List.drop_nil, applyRuleGo_nil, applyRuleGo_nil]
  | cons c cs ih =>
    intro n
    cases n with
    | zero => rfl
    | succ m => rw [applyRuleGo_succ, List.drop_succ_cons, ih]

lemma applyRuleGo_cons_pos {p : Char} {ps : List Char} {c : Char} {cs : List Char}
    (sub : List Char) (h : (p :: ps) <+: (c :: cs)) :
    applyRuleGo p ps sub 0 (c :: cs) = sub ++ applyRuleGo p ps sub 0 (cs.drop ps.length) := by
  rw [applyRuleGo_zero_cons, if_pos h, applyRuleGo_skip]

lemma applyRuleGo_cons_neg {p : Char} {ps : List Char} {c : Char} {cs : List Char}
    (sub : List Char) (h : ¬ (p :: ps) <+: (c :: cs)) :
    applyRuleGo p ps sub 0 (c :: cs) = c :: applyRuleGo p ps sub 0 cs := by
  rw [applyRuleGo_zero_cons, if_neg h]

lemma applyRule_nil (r : Rule) : applyRule [] r = [] := by
  obtain ⟨pat, sub⟩ := r
  cases pat with
  | nil => rfl
  | cons p ps => exact applyRuleGo_nil p ps sub 0

lemma applyRules_cons (r : Rule) (rs : List Rule) (l : List Char) :
    applyRules (r :: rs) l = applyRules rs (applyRule l r) := rfl

lemma applyRules_nil : ∀ (rules : List Rule), applyRules rules [] = []
  | [] => rfl
  | r :: rs => by rw [applyRules_cons, applyRule_nil]; exact applyRules_nil rs

/-- Every character of a pass's output comes from the input line or from the
inserted symbol text. -/
lemma applyRuleGo_mem (p : Char) (ps sub : List Char) :
    ∀ (n : Nat) (l : List Char), l.length ≤ n →
      ∀ c ∈ applyRuleGo p ps sub 0 l, c ∈ l ∨ c ∈ sub := by
  intro n
  induction n with
  | zero =>
    intro l hl c hc
    obtain rfl : l = [] := List.eq_nil_of_length_eq_zero (Nat.le_zero.mp hl)
    rw [applyRuleGo_nil] at hc
    exact absurd hc (List.not_mem_nil c)
  | succ m ih =>
    intro l hl c hc
    match l with
    | [] =>
      rw [applyRuleGo_nil] at hc
      exact absurd hc (List.not_mem_nil c)
    | x :: xs =>
      rw [List.length_cons] at hl
      by_cases hp : (p :: ps) <+: (x :: xs)
      · rw [applyRuleGo_cons_pos sub hp] at hc
        rcases List.mem_append.mp hc with h1 | h1
        · exact Or.inr h1
        · have hlen : (xs.drop ps.length).length ≤ m := by
            rw [List.length_drop]
            exact le_trans (Nat.sub_le _ _) (Nat.le_of_succ_le_succ hl)
          rcases ih (xs.drop ps.length) hlen c h1 with h2 | h2
          · exact Or.inl (List.mem_cons_of_mem x (List.mem_of_mem_drop h2))
          · exact Or.inr h2
      · rw [applyRuleGo_cons_neg sub hp] at hc
        rcases List.mem_cons.mp hc with h1 | h1
        · exact Or.inl (h1 ▸ List.mem_cons_self x xs)
        · rcases ih xs (Nat.le_of_succ_le_succ hl) c h1 with h2 | h2
          · exact Or.inl (List.mem_cons_of_mem x h2)
          · exact Or.inr h2

/-- A pass over a line in which the pattern does not occur is the identity. -/
lemma applyRuleGo_no_occur (p : Char) (ps sub : List Char) :
    ∀ (n : Nat) (l : List Char), l.length ≤ n → ¬ (p :: ps) <:+: l →
      applyRuleGo p ps sub 0 l = l := by
  intro n
  induction n with
  | zero =>
    intro l hl _
    obtain rfl : l = [] := List.eq_nil_of_length_eq_zero (Nat.le_zero.mp hl)
    exact applyRuleGo_nil p ps sub 0
  | succ m ih =>
    intro l hl hocc
    match l with
    | [] => exact applyRuleGo_nil p ps sub 0
    | x :: xs =>
      rw [List.length_cons] at hl
      by_cases hp : (p :: ps) <+: (x :: xs)
      · exact absurd hp.isInfix hocc
      · rw [applyRuleGo_cons_neg sub hp]
        rw [ih xs (Nat.le_of_succ_le_succ hl) (fun h => hocc (List.infix_cons h))]

/-! ### The read and write loops -/

lemma readLoop_cons (order : List Rule) (buf : List (List Char)) (l : List Char)
    (ls : List (List Char)) :
    readLoop order buf (l :: ls) =
      readLoop order
        (if 0 < (applyRules order l).length then buf ++ [applyRules order l] else buf) ls := rfl

lemma readLoop_eq (order : List Rule) :
    ∀ (ls : List (List Char)) (buf : List (List Char)),
      readLoop order buf ls =
        buf ++ (ls.map (applyRules order)).filter (fun t => decide (0 < t.length)) := by
  intro ls
  induction ls with
  | nil => intro buf; simp [readLoop]
  | cons l ls ih =>
    intro buf
    rw [readLoop_cons]
    by_cases h : 0 < (applyRules order l).length
    · rw [if_pos h, ih, List.map_cons, List.filter_cons]
      simp [h]
    · rw [if_neg h, ih, List.map_cons, List.filter_cons]
      simp [h]

lemma writeLoop_eq :
    ∀ (es : List (List Char)) (out : List Char),
      writeLoop es out = out ++ (es.map (fun e => e ++ ['\n'])).flatten := by
  intro es
  induction es with
  | nil => intro out; simp [writeLoop]
  | cons e es ih =>
    intro out
    rw [writeLoop, ih]
    simp [List.append_assoc]

lemma splitLinesGo_cons (cur : List Char) (c : Char) (cs : List Char) :
    splitLinesGo cur (c :: cs) =
      if c = '\n' then cur :: splitLinesGo [] cs else splitLinesGo (cur ++ [c]) cs := rfl

lemma splitLinesGo_emit (e : List Char) (he : '\n' ∉ e) :
    ∀ (cur rest : List Char),
      splitLinesGo cur (e ++ '\n' :: rest) = (cur ++ e) :: splitLinesGo [] rest := by
  induction e with
  | nil =>
    intro cur rest
    rw [List.nil_append, splitLinesGo_cons, if_pos rfl, List.append_nil]
  | cons c cs ih =>
    intro cur rest
    have hc : c ≠ '\n' := fun h => he (h ▸ List.mem_cons_self c cs)
    rw [List.cons_append, splitLinesGo_cons, if_neg hc,
      ih (fun h => he (List.mem_cons_of_mem c h)), List.append_assoc]
    rfl

/-- Splitting the emitted text recovers the buffer entries verbatim, provided
no entry contains a line terminator of its own. -/
lemma splitLines_emitted :
    ∀ (es : List (List Char)), (∀ e ∈ es, '\n' ∉ e) →
      splitLines ((es.map (fun e => e ++ ['\n'])).flatten) = es := by
  intro es
  induction es with
  | nil => intro _; rfl
  | cons e es ih =>
    intro h
    rw [List.map_cons, List.flatten_cons, List.append_assoc, List.singleton_append, splitLines,
      splitLinesGo_emit e (h e (List.mem_cons_self e es)), List.nil_append]
    exact congrArg (e :: ·) (ih (fun x hx => h x (List.mem_cons_of_mem e hx)))

/-! ### Distribution of one rule's pass over straddle-free splits -/

/-- No occurrence of the pattern `pat` straddles the split between `x` and
`y`: there is no way to cut `pat` into a non-empty suffix of `x` followed by a
prefix of `y`. -/
def SplitSafe (pat x y : List Char) : Prop :=
  ∀ k, k < pat.length → 0 < k → ¬(pat.take k <:+ x ∧ pat.drop k <+: y)

instance (pat x y : List Char) : Decidable (SplitSafe pat x y) :=
  inferInstanceAs
    (Decidable (∀ k, k < pat.length → 0 < k → ¬(pat.take k <:+ x ∧ pat.drop k <+: y)))

/-- When no occurrence of the pattern straddles the boundary, one rule's pass
over `x ++ y` is the pass over `x` followed by the pass over `y`. -/
lemma applyRuleGo_append (p : Char) (ps sub : List Char) :
    ∀ (n : Nat) (x y : List Char), x.length ≤ n → SplitSafe (p :: ps) x y →
      applyRuleGo p ps sub 0 (x ++ y) =
        applyRuleGo p ps sub 0 x ++ applyRuleGo p ps sub 0 y := by
  intro n
  induction n with
  | zero =>
    intro x y hx _
    obtain rfl : x = [] := List.eq_nil_of_length_eq_zero (Nat.le_zero.mp hx)
    rw [List.nil_append, applyRuleGo_nil, List.nil_append]
  | succ m ih =>
    intro x y hx hsafe
    match x with
    | [] => rw [List.nil_append, applyRuleGo_nil, List.nil_append]
    | c :: cs =>
      rw [List.length_cons] at hx
      by_cases hp : (p :: ps) <+: ((c :: cs) ++ y)
      · by_cases hlen : (p :: ps).length ≤ (c :: cs).length
        · have hpx : (p :: ps) <+: (c :: cs) := by
            have h1 := List.prefix_iff_eq_take.mp hp
            rw [List.take_append_eq_append_take, Nat.sub_eq_zero_of_le hlen, List.take_zero,
              List.append_nil] at h1
            exact List.prefix_iff_eq_take.mpr h1
          rw [List.cons_append, @applyRuleGo_cons_pos p ps c (cs ++ y) sub hp,
            applyRuleGo_cons_pos sub hpx]
          have hps : ps.length ≤ cs.length := Nat.le_of_succ_le_succ hlen
          rw [List.drop_append_eq_append_drop, Nat.sub_eq_zero_of_le hps, List.drop_zero]
          have hlen2 : (cs.drop ps.length).length ≤ m := by
            rw [List.length_drop]
            exact le_trans (Nat.sub_le _ _) (Nat.le_of_succ_le_succ hx)
          have hsafe2 : SplitSafe (p :: ps) (cs.drop ps.length) y := by
            intro k hk hk0 hkc
            exact hsafe k hk hk0
              ⟨hkc.1.trans ((List.drop_suffix _ _).trans (List.suffix_cons c cs)), hkc.2⟩
          rw [ih (cs.drop ps.length) y hlen2 hsafe2, List.append_assoc]
        · exfalso
          push_neg at hlen
          obtain ⟨t, ht⟩ := hp
          have hnle : (c :: cs).length ≤ (p :: ps).length := Nat.le_of_lt hlen
          have htake : (p :: ps).take (c :: cs).length = c :: cs := by
            have h1 := congrArg (List.take (c :: cs).length) ht
            rw [List.take_append_eq_append_take, Nat.sub_eq_zero_of_le hnle, List.take_zero,
              List.append_nil, List.take_left] at h1
            exact h1
          have hdrop : (p :: ps).drop (c :: cs).length ++ t = y := by
            have h1 := congrArg (List.drop (c :: cs).length) ht
            rw [List.drop_append_eq_append_drop, Nat.sub_eq_zero_of_le hnle, List.drop_zero,
              List.drop_left] at h1
            exact h1
          exact hsafe (c :: cs).length hlen (by simp)
            ⟨by rw [htake], ⟨t, hdrop⟩⟩
      · have hpx : ¬ (p :: ps) <+: (c :: cs) :=
          fun hc => hp (hc.trans (List.prefix_append (c :: cs) y))
        have hsafe3 : SplitSafe (p :: ps) cs y := by
          intro k hk hk0 hkc
          exact hsafe k hk hk0 ⟨hkc.1.trans (List.suffix_cons c cs), hkc.2⟩
        rw [List.cons_append, @applyRuleGo_cons_neg p ps c (cs ++ y) sub hp,
          applyRuleGo_cons_neg sub hpx,
          ih cs y (Nat.le_of_succ_le_succ hx) hsafe3, List.cons_append]

/-- No occurrence of the pattern straddles any of the boundaries of the
decomposition `xs` of a line. -/
def NoStraddle (pat : List Char) : List (List Char) → Prop
  | [] => True
  | x :: rest => SplitSafe pat x rest.flatten ∧ NoStraddle pat rest

instance instDecNoStraddle (pat : List Char) :
    ∀ (xs : List (List Char)), Decidable (NoStraddle pat xs)
  | [] => isTrue trivial
  | x :: rest =>
    have : Decidable (NoStraddle pat rest) := instDecNoStraddle pat rest
    inferInstanceAs (Decidable (SplitSafe pat x rest.flatten ∧ NoStraddle pat rest))

/-- One rule's pass distributes over a straddle-free decomposition of the
line into chunks. -/
lemma applyRuleGo_flatten (p : Char) (ps sub : List Char) :
    ∀ (xs : List (List Char)), NoStraddle (p :: ps) xs →
      applyRuleGo p ps sub 0 xs.flatten = (xs.map (applyRuleGo p ps sub 0)).flatten := by
  intro xs
  induction xs with
  | nil => intro _; simp [applyRuleGo_nil]
  | cons x rest ih =>
    intro h
    rw [List.flatten_cons, applyRuleGo_append p ps sub x.length x rest.flatten le_rfl h.1,
      ih h.2, List.map_cons, List.flatten_cons]

/-! ### Order-independence of the substitution on the scenario line

The spec's §8 scenario line `fn Main() { return 0; }` is cut into chunks at
the pattern occurrences.  Whatever subset of rules has already run, the
current line is the flattening of the per-chunk states, no pattern straddles
a chunk boundary, and one further pass moves the state one rule forward —
so every iteration order of the rule table produces the same output. -/

/-- A chunk state: the occurrence of a rule's pattern shows the rule's symbol
once `f` marks that rule as already applied; literal text never changes. -/
def atomText (f : Rule → Bool) : Rule ⊕ List Char → List Char
  | Sum.inl r => if f r then r.2 else r.1
  | Sum.inr s => s

/-- The scenario line, cut at every pattern occurrence. -/
def scenarioAtoms : List (Rule ⊕ List Char) :=
  [ Sum.inl ("fn".data, "@FUNCTION@".data),
    Sum.inl (" ".data, "@WHITESPACE@".data),
    Sum.inl ("Main".data, "@ENTRY_POINT@".data),
    Sum.inl ("(".data, "@PARENTHESIS_BEGIN@".data),
    Sum.inl (")".data, "@PARENTHESIS_END@".data),
    Sum.inl (" ".data, "@WHITESPACE@".data),
    Sum.inl ("\x7b".data, "@BRACKET_BEGIN@".data),
    Sum.inl (" ".data, "@WHITESPACE@".data),
    Sum.inl ("return".data, "@RETURN@".data),
    Sum.inl (" ".data, "@WHITESPACE@".data),
    Sum.inr "0".data,
    Sum.inl (";".data, "@SEMICOLON@".data),
    Sum.inl (" ".data, "@WHITESPACE@".data),
    Sum.inl ("\x7d".data, "@BRACKET_END@".data) ]

/-- The scenario line with the rules marked in `f` already substituted. -/
def renderScenario (f : Rule → Bool) : List Char :=
  (scenarioAtoms.map (atomText f)).flatten

/-- What one table rule's pass does to either state of a chunk: it replaces
the chunk's own pattern, and leaves the chunk's symbol and every other
chunk text untouched. -/
def atomStep (r : Rule) : Rule ⊕ List Char → Prop
  | Sum.inl rj =>
      applyRule rj.1 r = (if r = rj then r.2 else rj.1) ∧ applyRule rj.2 r = rj.2
  | Sum.inr s => applyRule s r = s

instance (r : Rule) : ∀ (a : Rule ⊕ List Char), Decidable (atomStep r a)
  | Sum.inl rj =>
    inferInstanceAs
      (Decidable (applyRule rj.1 r = (if r = rj then r.2 else rj.1) ∧ applyRule rj.2 r = rj.2))
  | Sum.inr s => inferInstanceAs (Decidable (applyRule s r = s))

/-- Structural facts about a chunk: its symbol text is `@`-delimited and its
rule is a table rule. -/
def atomShape : Rule ⊕ List Char → Prop
  | Sum.inl rj => rj.2.head? = some '@' ∧ rj.2.getLast? = some '@' ∧ rj ∈ GenerateTokens
  | Sum.inr _ => True

instance : ∀ (a : Rule ⊕ List Char), Decidable (atomShape a)
  | Sum.inl rj =>
    inferInstanceAs
      (Decidable (rj.2.head? = some '@' ∧ rj.2.getLast? = some '@' ∧ rj ∈ GenerateTokens))
  | Sum.inr _ => isTrue trivial

lemma table_pat_ne_nil : ∀ r ∈ GenerateTokens, r.1 ≠ [] := by decide

lemma table_pat_no_at : ∀ r ∈ GenerateTokens, '@' ∉ r.1 := by decide

lemma table_sub_no_newline : ∀ r ∈ GenerateTokens, '\n' ∉ r.2 := by decide

lemma scenario_shape_b :
    (scenarioAtoms.all (fun a => decide (atomShape a))) = true := by decide

lemma scenario_shape : ∀ a ∈ scenarioAtoms, atomShape a := by
  have h := scenario_shape_b
  rw [List.all_eq_true] at h
  intro a ha
  exact of_decide_eq_true (h a ha)

lemma scenario_step_b :
    (GenerateTokens.all
      (fun r => scenarioAtoms.all (fun a => decide (atomStep r a)))) = true := by decide

lemma scenario_step : ∀ r ∈ GenerateTokens, ∀ a ∈ scenarioAtoms, atomStep r a := by
  have h := scenario_step_b
  rw [List.all_eq_true] at h
  intro r hr a ha
  have h2 := h r hr
  rw [List.all_eq_true] at h2
  exact of_decide_eq_true (h2 a ha)

lemma scenario_raw_safe :
    ∀ r ∈ GenerateTokens,
      NoStraddle r.1 (scenarioAtoms.map (atomText (fun _ => false))) := by decide

lemma mem_of_head?_at {l : List Char} (h : l.head? = some '@') : '@' ∈ l := by
  cases l with
  | nil => exact Option.noConfusion h
  | cons c t =>
    have hc : c = '@' := Option.some_inj.mp h
    exact hc ▸ List.mem_cons_self c t

/-- A non-empty `@`-free suffix of a chunk's current text is a suffix of the
chunk's raw text. -/
lemma suffix_atomText (f : Rule → Bool) (a : Rule ⊕ List Char) (hsh : atomShape a)
    (q : List Char) (hq : q ≠ []) (hat : '@' ∉ q) (h : q <:+ atomText f a) :
    q <:+ atomText (fun _ => false) a := by
  cases a with
  | inr s => exact h
  | inl rj =>
    by_cases hf : f rj
    · exfalso
      rw [show atomText f (Sum.inl rj) = rj.2 by simp [atomText, hf]] at h
      obtain ⟨t, ht⟩ := h
      have hlast : q.getLast? = some '@' := by
        have h2 := hsh.2.1
        rw [← ht, List.getLast?_append_of_ne_nil t hq] at h2
        exact h2
      exact hat (List.mem_of_getLast?_eq_some hlast)
    · simpa [atomText, hf] using h

/-- A non-empty `@`-free prefix of a chunk's current text forces the chunk to
be in its raw state. -/
lemma prefix_atomText (f : Rule → Bool) (a : Rule ⊕ List Char) (hsh : atomShape a)
    (c : Char) (q : List Char) (hat : '@' ∉ (c :: q)) (h : (c :: q) <+: atomText f a) :
    atomText f a = atomText (fun _ => false) a := by
  cases a with
  | inr s => rfl
  | inl rj =>
    by_cases hf : f rj
    · exfalso
      rw [show atomText f (Sum.inl rj) = rj.2 by simp [atomText, hf]] at h
      obtain ⟨t, ht⟩ := h
      have hhead : rj.2.head? = some c := by rw [← ht]; rfl
      have hc : c = '@' := by
        have := hsh.1
        rw [hhead] at this
        exact Option.some_inj.mp this
      exact hat (hc ▸ List.mem_cons_self c q)
    · simp [atomText, hf]

/-- A non-empty `@`-free prefix of the flattened current chunks is a prefix
of the flattened raw chunks. -/
lemma prefix_flatten_atomText (f : Rule → Bool) :
    ∀ (ats : List (Rule ⊕ List Char)), (∀ a ∈ ats, atomShape a) →
      ∀ (q : List Char), '@' ∉ q → q <+: (ats.map (atomText f)).flatten →
        q <+: (ats.map (atomText (fun _ => false))).flatten := by
  intro ats
  induction ats with
  | nil => intro _ q _ h; simpa using h
  | cons a rest ih =>
    intro hsh q hat h
    rw [List.map_cons, List.flatten_cons] at h ⊢
    by_cases hle : q.length ≤ (atomText f a).length
    · have hq1 : q <+: atomText f a := by
        rw [List.prefix_iff_eq_take] at h ⊢
        rw [List.take_append_eq_append_take, Nat.sub_eq_zero_of_le hle, List.take_zero,
          List.append_nil] at h
        exact h
      match q, hq1 with
      | [], _ => exact List.nil_prefix
      | c :: q', hq1 =>
        have hraw := prefix_atomText f a (hsh a (List.mem_cons_self a rest)) c q' hat hq1
        rw [← hraw]
        exact hq1.trans (List.prefix_append _ _)
    · push_neg at hle
      obtain ⟨t, ht⟩ := h
      have hs0 : atomText f a <+: q := by
        rw [List.prefix_iff_eq_take]
        have h1 := congrArg (List.take (atomText f a).length) ht
        rw [List.take_append_eq_append_take, Nat.sub_eq_zero_of_le (Nat.le_of_lt hle),
          List.take_zero, List.append_nil, List.take_left] at h1
        exact h1.symm
      have hs0at : '@' ∉ atomText f a := fun hmem => hat (hs0.subset hmem)
      have hraw : atomText f a = atomText (fun _ => false) a := by
        cases a with
        | inr s => rfl
        | inl rj =>
          by_cases hf : f rj
          · exfalso
            apply hs0at
            rw [show atomText f (Sum.inl rj) = rj.2 by simp [atomText, hf]]
            exact mem_of_head?_at (hsh (Sum.inl rj) (List.mem_cons_self _ rest)).1
          · simp [atomText, hf]
      obtain ⟨q', hq'⟩ := hs0
      have hq'pre : q' <+: (rest.map (atomText f)).flatten := by
        refine ⟨t, ?_⟩
        have h1 : atomText f a ++ (q' ++ t) = atomText f a ++ (rest.map (atomText f)).flatten := by
          rw [← List.append_assoc, hq', ht]
        exact List.append_cancel_left h1
      have hq'at : '@' ∉ q' := fun hmem => hat (hq' ▸ List.mem_append_right _ hmem)
      have := ih (fun x hx => hsh x (List.mem_cons_of_mem a hx)) q' hq'at hq'pre
      rw [← hq', hraw]
      obtain ⟨u, hu⟩ := this
      exact ⟨u, by rw [List.append_assoc, hu]⟩

/-- If no pattern occurrence straddles a chunk boundary of the raw line, none
straddles a boundary of any partially substituted state either. -/
lemma noStraddle_atomText (pat : List Char) (hat : '@' ∉ pat) :
    ∀ (ats : List (Rule ⊕ List Char)), (∀ a ∈ ats, atomShape a) →
      NoStraddle pat (ats.map (atomText (fun _ => false))) →
      ∀ (f : Rule → Bool), NoStraddle pat (ats.map (atomText f)) := by
  intro ats
  induction ats with
  | nil => intro _ _ f; exact trivial
  | cons a rest ih =>
    intro hsh h0 f
    rw [List.map_cons] at h0 ⊢
    refine ⟨?_, ih (fun x hx => hsh x (List.mem_cons_of_mem a hx)) h0.2 f⟩
    intro k hk hk0 hkc
    have htk_ne : pat.take k ≠ [] := by
      apply List.ne_nil_of_length_pos
      rw [List.length_take]
      exact lt_min hk0 (lt_of_lt_of_le hk0 (Nat.le_of_lt hk))
    have htk_at : '@' ∉ pat.take k := fun hmem => hat ((List.take_sublist k pat).subset hmem)
    have hdk_at : '@' ∉ pat.drop k := fun hmem => hat ((List.drop_sublist k pat).subset hmem)
    apply h0.1 k hk hk0
    constructor
    · exact suffix_atomText f a (hsh a (List.mem_cons_self a rest)) (pat.take k) htk_ne htk_at
        hkc.1
    · exact prefix_flatten_atomText f rest (fun x hx => hsh x (List.mem_cons_of_mem a hx))
        (pat.drop k) hdk_at hkc.2

/-- Marking one more rule as applied. -/
def updateRule (f : Rule → Bool) (r : Rule) : Rule → Bool :=
  fun r' => if r' = r then true else f r'

/-- One pass of a table rule moves every chunk one step forward. -/
lemma atomText_step (f : Rule → Bool) (r : Rule) (hr : r ∈ GenerateTokens)
    (a : Rule ⊕ List Char) (ha : a ∈ scenarioAtoms) :
    applyRule (atomText f a) r = atomText (updateRule f r) a := by
  have hstep := scenario_step r hr a ha
  cases a with
  | inr s => exact hstep
  | inl rj =>
    by_cases hf : f rj
    · have hu : updateRule f r rj = true := by
        unfold updateRule
        by_cases h : rj = r <;> simp [h, hf]
      have h2 : applyRule rj.2 r = rj.2 := hstep.2
      simp [atomText, hf, hu, h2]
    · by_cases hrr : r = rj
      · subst hrr
        have h1 : applyRule r.1 r = r.2 := by
          have := hstep.1
          rwa [if_pos rfl] at this
        have hu : updateRule f r r = true := by simp [updateRule]
        simp [atomText, hf, hu, h1]
      · have h1 : applyRule rj.1 r = rj.1 := by
          have := hstep.1
          rwa [if_neg hrr] at this
        have hu : updateRule f r rj = f rj := by
          unfold updateRule
          rw [if_neg (fun h => hrr h.symm)]
        simp [atomText, hf, hu, h1]

/-- One pass of a table rule over any partially substituted scenario state
lands in the next state — regardless of which rules already ran. -/
lemma renderScenario_step (f : Rule → Bool) (r : Rule) (hr : r ∈ GenerateTokens) :
    applyRule (renderScenario f) r = renderScenario (updateRule f r) := by
  obtain ⟨p, ps, hps⟩ : ∃ p ps, r.1 = p :: ps := by
    cases hpat : r.1 with
    | nil => exact absurd hpat (table_pat_ne_nil r hr)
    | cons p ps => exact ⟨p, ps, rfl⟩
  have hAR : ∀ l, applyRule l r = applyRuleGo p ps r.2 0 l := by
    intro l
    rw [applyRule, hps]
  have hsafe : NoStraddle (p :: ps) (scenarioAtoms.map (atomText f)) := by
    have hat : '@' ∉ (p :: ps) := hps ▸ table_pat_no_at r hr
    have hraw := scenario_raw_safe r hr
    rw [hps] at hraw
    exact noStraddle_atomText (p :: ps) hat scenarioAtoms scenario_shape hraw f
  rw [hAR, renderScenario, renderScenario,
    applyRuleGo_flatten p ps r.2 (scenarioAtoms.map (atomText f)) hsafe, List.map_map]
  congr 1
  apply List.map_congr_left
  intro a ha
  have := atomText_step f r hr a ha
  rw [hAR] at this
  exact this

/-- Folding any list of table rules over any scenario state just marks those
rules as applied. -/
lemma applyRules_renderScenario :
    ∀ (ord : List Rule) (f : Rule → Bool), (∀ r ∈ ord, r ∈ GenerateTokens) →
      applyRules ord (renderScenario f) =
        renderScenario (fun r' => f r' || decide (r' ∈ ord)) := by
  intro ord
  induction ord with
  | nil =>
    intro f _
    have hf : (fun r' => f r' || decide (r' ∈ ([] : List Rule))) = f := by
      funext r'
      simp
    rw [hf]
    rfl
  | cons r rest ih =>
    intro f h
    rw [applyRules_cons, renderScenario_step f r (h r (List.mem_cons_self r rest)),
      ih (updateRule f r) (fun x hx => h x (List.mem_cons_of_mem r hx))]
    congr 1
    funext r'
    by_cases hrr : r' = r
    · subst hrr
      simp [updateRule]
    · simp [updateRule, hrr, List.mem_cons]

/-- The scenario line of §8. -/
def scenarioLine : List Char := "fn Main() \x7b return 0; \x7d".data

/-- The token string the scenario line must become. -/
def scenarioResult : List Char :=
  ("@FUNCTION@@WHITESPACE@@ENTRY_POINT@@PARENTHESIS_BEGIN@@PARENTHESIS_END@" ++
   "@WHITESPACE@@BRACKET_BEGIN@@WHITESPACE@@RETURN@@WHITESPACE@0@SEMICOLON@" ++
   "@WHITESPACE@@BRACKET_END@").data

set_option maxRecDepth 8000 in
lemma renderScenario_raw : renderScenario (fun _ => false) = scenarioLine := by decide

set_option maxRecDepth 8000 in
lemma renderScenario_full :
    renderScenario (fun r => decide (r ∈ GenerateTokens)) = scenarioResult := by decide

/-- Whatever order the unordered container yields, the scenario line is
tokenized to the same symbol string. -/
lemma applyRules_scenario (ord : List Rule) (h : ord.Perm GenerateTokens) :
    applyRules ord scenarioLine = scenarioResult := by
  rw [← renderScenario_raw,
    applyRules_renderScenario ord (fun _ => false) (fun r hr => h.subset hr)]
  have hfun : (fun r' => false || decide (r' ∈ ord)) =
      (fun r' => decide (r' ∈ GenerateTokens)) := by
    funext r'
    rw [Bool.false_or]
    exact decide_eq_decide.mpr h.mem_iff
  rw [hfun, renderScenario_full]

/-! ### Facts about a single pass and about `Read` -/

/-- A pass of a rule whose pattern does not occur in the line leaves the line
unchanged. -/
lemma applyRule_no_occur (line : List Char) (r : Rule) (h : ¬ r.1 <:+: line) :
    applyRule line r = line := by
  obtain ⟨pat, sub⟩ := r
  cases pat with
  | nil => rfl
  | cons p ps => exact applyRuleGo_no_occur p ps sub line.length line le_rfl h

/-- A pass whose pattern heads the remaining text emits the symbol and
resumes immediately after the consumed occurrence; the inserted symbol itself
is never rescanned by the same pass. -/
lemma applyRule_head_match (pat sub rest : List Char) (h : pat ≠ []) :
    applyRule (pat ++ rest) (pat, sub) = sub ++ applyRule rest (pat, sub) := by
  match pat, h with
  | p :: ps, _ =>
    show applyRuleGo p ps sub 0 ((p :: ps) ++ rest) = sub ++ applyRuleGo p ps sub 0 rest
    rw [List.cons_append,
      @applyRuleGo_cons_pos p ps p (ps ++ rest) sub (List.prefix_append (p :: ps) rest),
      List.drop_left]

/-- Characters of a pass's output come from the line or from the symbol. -/
lemma applyRule_mem (line : List Char) (r : Rule) (c : Char)
    (hc : c ∈ applyRule line r) : c ∈ line ∨ c ∈ r.2 := by
  obtain ⟨pat, sub⟩ := r
  cases pat with
  | nil => exact Or.inl hc
  | cons p ps => exact applyRuleGo_mem p ps sub line.length line le_rfl c hc

/-- If no table symbol contains a newline, the whole loop preserves
newline-freedom of the line. -/
lemma applyRules_no_newline :
    ∀ (rs : List Rule), (∀ r ∈ rs, '\n' ∉ r.2) →
      ∀ (l : List Char), '\n' ∉ l → '\n' ∉ applyRules rs l := by
  intro rs
  induction rs with
  | nil => intro _ l hl; exact hl
  | cons r rest ih =>
    intro hrs l hl
    rw [applyRules_cons]
    apply ih (fun x hx => hrs x (List.mem_cons_of_mem r hx))
    intro hmem
    rcases applyRule_mem l r '\n' hmem with h | h
    · exact hl h
    · exact hrs r (List.mem_cons_self r rest) h

/-- On a newline-free line, the pass of the newline rule is the identity. -/
lemma applyRule_newline_id (l : List Char) (hl : '\n' ∉ l) :
    applyRule l ("\n".data, "@NEW_LINE@".data) = l := by
  apply applyRule_no_occur
  intro hocc
  exact hl (hocc.sublist.subset (by decide))

/-- Closed form of a successful `Read`: the path and the iteration order are
stored, and the non-empty post-substitution lines are appended to the
buffer in file order. -/
lemma Read_some (a : Analyzer) (path : String) (lines : List (List Char))
    (order : List Rule) :
    Read a path (some lines) order =
      (true,
        { fileName := path, tokens := order,
          m_CommandBuffer :=
            a.m_CommandBuffer ++
              (lines.map (applyRules order)).filter (fun t => decide (0 < t.length)) }) := by
  have h : Read a path (some lines) order =
      (true,
        { fileName := path, tokens := order,
          m_CommandBuffer := readLoop order a.m_CommandBuffer lines }) := rfl
  rw [h, readLoop_eq]

/-! ### The claims -/

/-- C1: the claim fails on the code.  The substitution loop iterates a
`std::unordered_map`, which guarantees no order; under the table's own
written order — a conforming iteration order, in which the rule for `"<"`
precedes the rule for `"<<"` — the line `"<<"` is turned into two
concatenated less-than symbols and not into the shift-left symbol. -/
theorem c1_shift_left_overlap_bug :
    applyRules GenerateTokens "<<".data = "@OPERATOR_LESS@@OPERATOR_LESS@".data ∧
    applyRules GenerateTokens "<<".data ≠ "@SHIFT_LEF@".data := by
  constructor <;> decide

/-- C2: the rule table as written violates the claimed ordering invariant:
the one-character pattern `"<"` sits at index 8 of the initializer list,
before its longer extension `"<<"` at index 15 (and `">"` likewise precedes
`">>"`); on top of that the member holding the table is a
`std::unordered_map`, so the loop's iteration order is not the written order
anyway. -/
theorem c2_rule_order_bug :
    GenerateTokens.get ⟨8, by decide⟩ = ("<".data, "@OPERATOR_LESS@".data) ∧
    GenerateTokens.get ⟨15, by decide⟩ = ("<<".data, "@SHIFT_LEF@".data) ∧
    "<".data <+: "<<".data ∧ "<".data ≠ "<<".data := by
  refine ⟨by decide, by decide, by decide, by decide⟩

/-- C3: the claim fails on the code for the rule `("<<", "@SHIFT_LEF@")`:
under the table's written order the line consisting of that pattern alone is
not mapped to that rule's symbol (the `"<"` rule fires first). -/
theorem c3_pattern_to_symbol_bug :
    ("<<".data, "@SHIFT_LEF@".data) ∈ GenerateTokens ∧
    applyRules GenerateTokens "<<".data ≠ "@SHIFT_LEF@".data := by
  constructor <;> decide

set_option maxRecDepth 8000 in
/-- C4: for the scenario file — the line `fn Main() { return 0; }` followed
by an empty line — a successful `Read` on a fresh analyzer leaves exactly one
buffer entry: the left-to-right concatenation of the symbols for `fn`,
whitespace, `Main`, `(`, `)`, whitespace, `{`, whitespace, `return`,
whitespace, the untouched literal `0`, `;`, whitespace, `}` — and this holds
under every iteration order the unordered container may present. -/
theorem c4_scenario (order : List Rule) (h : order.Perm GenerateTokens) :
    Read initAnalyzer "Main.sg" (some [scenarioLine, []]) order =
      (true,
        { fileName := "Main.sg", tokens := order,
          m_CommandBuffer := [scenarioResult] }) := by
  have h1 : ([scenarioResult, ([] : List Char)]).filter (fun t => decide (0 < t.length)) =
      [scenarioResult] := by decide
  rw [Read_some, List.map_cons, List.map_cons, List.map_nil,
    applyRules_scenario order h, applyRules_nil, h1]
  rfl

/-- C4 witness: the written table order is one conforming iteration order. -/
theorem c4_scenario_witness :
    Read initAnalyzer "Main.sg" (some [scenarioLine, []]) GenerateTokens =
      (true,
        { fileName := "Main.sg", tokens := GenerateTokens,
          m_CommandBuffer := [scenarioResult] }) :=
  c4_scenario GenerateTokens (List.Perm.refl GenerateTokens)

/-- C5 counterexample: a second successful `Read` on the same analyzer does
not start from an empty Command Buffer — the entry produced by the first
`Read` is still there, so the buffer is not exactly the second file's
lines. -/
theorem c5_second_read_counterexample :
    (Read (Read initAnalyzer "a.sg" (some ["fn".data]) GenerateTokens).2 "b.sg"
        (some ["use".data]) GenerateTokens).2.m_CommandBuffer =
      ["@FUNCTION@".data, "@INCLUDE@".data] ∧
    ["@FUNCTION@".data, "@INCLUDE@".data] ≠ ["@INCLUDE@".data] := by
  constructor <;> decide

/-- C5 (amended): `Read` never clears the Command Buffer; a successful read
appends the file's non-empty post-substitution lines, in file order, to
whatever the buffer already held — so only on a fresh analyzer is the buffer
exactly that one file's lines. -/
theorem c5_read_appends (a : Analyzer) (path : String) (lines : List (List Char))
    (order : List Rule) :
    (Read a path (some lines) order).1 = true ∧
    (Read a path (some lines) order).2.m_CommandBuffer =
      a.m_CommandBuffer ++
        (lines.map (applyRules order)).filter (fun t => decide (0 < t.length)) := by
  rw [Read_some]
  exact ⟨rfl, rfl⟩

/-- C6: when the file cannot be opened, `Read` returns `false` immediately,
the rule table is not rebuilt, the Command Buffer is left unchanged (so still
empty on a fresh instance), and the attempted path has been recorded. -/
theorem c6_read_open_failure (a : Analyzer) (path : String) (order : List Rule) :
    (Read a path none order).1 = false ∧
    (Read a path none order).2.m_CommandBuffer = a.m_CommandBuffer ∧
    (Read a path none order).2.tokens = a.tokens ∧
    (Read a path none order).2.fileName = path :=
  ⟨rfl, rfl, rfl, rfl⟩

/-- C7: a successful `Write` emits every Command Buffer entry in buffer
order, each entry verbatim and followed by one line terminator; splitting the
emitted text at the terminators recovers exactly the buffer, so the output's
line count equals the buffer's length; and `Write` leaves the analyzer state
— in particular the buffer — unchanged. -/
theorem c7_write_verbatim (a : Analyzer) (h : ∀ e ∈ a.m_CommandBuffer, '\n' ∉ e) :
    (Write a true).1 = true ∧
    (Write a true).2.1 = a ∧
    (Write a true).2.2 = (a.m_CommandBuffer.map (fun e => e ++ ['\n'])).flatten ∧
    splitLines (Write a true).2.2 = a.m_CommandBuffer ∧
    (splitLines (Write a true).2.2).length = a.m_CommandBuffer.length := by
  have hw : (Write a true).2.2 = (a.m_CommandBuffer.map (fun e => e ++ ['\n'])).flatten := by
    have h0 : (Write a true).2.2 = writeLoop a.m_CommandBuffer [] := rfl
    rw [h0, writeLoop_eq, List.nil_append]
  refine ⟨rfl, rfl, hw, ?_, ?_⟩
  · rw [hw]
    exact splitLines_emitted a.m_CommandBuffer h
  · rw [hw, splitLines_emitted a.m_CommandBuffer h]

/-- An analyzer state holding one tokenized entry, used as a witness input. -/
def oneEntryAnalyzer : Analyzer :=
  { fileName := "a.sg", tokens := [], m_CommandBuffer := ["@FUNCTION@".data] }

/-- C7 witness. -/
theorem c7_write_verbatim_witness :
    splitLines (Write oneEntryAnalyzer true).2.2 = ["@FUNCTION@".data] :=
  (c7_write_verbatim oneEntryAnalyzer (by decide)).2.2.2.1

/-- C8: one rule's pass is a total function of the model (it always
terminates); when the pattern heads the remaining text, the pass emits the
symbol and resumes immediately after the consumed occurrence — the inserted
symbol is never rescanned by the same pass — and a pass over a line without
any occurrence of the pattern is the identity. -/
theorem c8_pass_resumes_and_noop :
    (∀ (pat sub rest : List Char), pat ≠ [] →
        applyRule (pat ++ rest) (pat, sub) = sub ++ applyRule rest (pat, sub)) ∧
    (∀ (line : List Char) (r : Rule), ¬ r.1 <:+: line → applyRule line r = line) :=
  ⟨fun pat sub rest h => applyRule_head_match pat sub rest h,
   fun line r h => applyRule_no_occur line r h⟩

/-- C8 witness. -/
theorem c8_pass_witness :
    applyRule ("<<".data ++ "x".data) ("<<".data, "@SHIFT_LEF@".data) =
      "@SHIFT_LEF@".data ++ applyRule "x".data ("<<".data, "@SHIFT_LEF@".data) ∧
    applyRule "abc".data ("<<".data, "@SHIFT_LEF@".data) = "abc".data :=
  ⟨c8_pass_resumes_and_noop.1 "<<".data "@SHIFT_LEF@".data "x".data (by decide),
   c8_pass_resumes_and_noop.2 "abc".data ("<<".data, "@SHIFT_LEF@".data) (by decide)⟩

/-- C9: a line that is empty after substitution is never appended to the
Command Buffer (a source line that is just a newline reaches the loop as the
empty line and is dropped for every rule order); hence all buffer entries
stay non-empty through any `Read`, and `Write` does not change the buffer at
all. -/
theorem c9_nonempty_buffer :
    (∀ (order : List Rule) (buf ls : List (List Char)),
        readLoop order buf ([] :: ls) = readLoop order buf ls) ∧
    (∀ (a : Analyzer) (path : String) (lines : List (List Char)) (order : List Rule),
        (∀ e ∈ a.m_CommandBuffer, e ≠ []) →
        ∀ e ∈ (Read a path (some lines) order).2.m_CommandBuffer, e ≠ []) ∧
    (∀ (a : Analyzer) (ok : Bool), (Write a ok).2.1.m_CommandBuffer = a.m_CommandBuffer) := by
  refine ⟨?_, ?_, ?_⟩
  · intro order buf ls
    rw [readLoop_cons, applyRules_nil]
    simp
  · intro a path lines order h e he
    rw [Read_some] at he
    rcases List.mem_append.mp he with h1 | h1
    · exact h e h1
    · have h2 := (List.mem_filter.mp h1).2
      exact List.ne_nil_of_length_pos (of_decide_eq_true h2)
  · intro a ok
    cases ok <;> rfl

/-- C9 witness. -/
theorem c9_nonempty_buffer_witness : "@FUNCTION@".data ≠ [] :=
  c9_nonempty_buffer.2.1 initAnalyzer "a.sg" ["fn".data] GenerateTokens
    (fun e he => absurd he (List.not_mem_nil e)) "@FUNCTION@".data (by decide)

/-- C10 counterexample: a legal input line (no newline character in it) that
literally spells the new-line symbol is passed through substitution unchanged
and lands in the Command Buffer, so the new-line symbol's text does occur in
a buffer entry. -/
theorem c10_symbol_in_buffer_counterexample :
    (Read initAnalyzer "a.sg" (some ["@NEW_LINE@".data]) GenerateTokens).2.m_CommandBuffer =
      ["@NEW_LINE@".data] ∧
    '\n' ∉ "@NEW_LINE@".data := by
  constructor <;> decide

/-- C10 (amended): lines handed to the substitution engine contain no newline
character, no pass introduces one, so the rule mapping the newline character
to the new-line symbol can never fire — its pass is the identity at whatever
point of the loop it runs — and every Command Buffer entry stays free of
newline characters; the new-line symbol's **text**, however, can reach the
buffer when it occurs literally in the source. -/
theorem c10_newline_rule_never_fires :
    (∀ (rs : List Rule), (∀ r ∈ rs, r ∈ GenerateTokens) →
        ∀ (l : List Char), '\n' ∉ l →
          '\n' ∉ applyRules rs l ∧
          applyRule (applyRules rs l) ("\n".data, "@NEW_LINE@".data) = applyRules rs l) ∧
    (∀ (a : Analyzer) (path : String) (lines : List (List Char)) (order : List Rule),
        (∀ r ∈ order, r ∈ GenerateTokens) →
        (∀ l ∈ lines, '\n' ∉ l) → (∀ e ∈ a.m_CommandBuffer, '\n' ∉ e) →
        ∀ e ∈ (Read a path (some lines) order).2.m_CommandBuffer, '\n' ∉ e) := by
  constructor
  · intro rs hrs l hl
    have h1 : '\n' ∉ applyRules rs l :=
      applyRules_no_newline rs (fun r hr => table_sub_no_newline r (hrs r hr)) l hl
    exact ⟨h1, applyRule_newline_id _ h1⟩
  · intro a path lines order hord hlines hbuf e he
    rw [Read_some] at he
    rcases List.mem_append.mp he with h1 | h1
    · exact hbuf e h1
    · obtain ⟨hm, _⟩ := List.mem_filter.mp h1
      obtain ⟨l, hl, rfl⟩ := List.mem_map.mp hm
      exact applyRules_no_newline order
        (fun r hr => table_sub_no_newline r (hord r hr)) l (hlines l hl)

/-- C10 witness. -/
theorem c10_newline_witness :
    applyRule (applyRules GenerateTokens "<".data) ("\n".data, "@NEW_LINE@".data) =
      applyRules GenerateTokens "<".data :=
  (c10_newline_rule_never_fires.1 GenerateTokens (fun _ hr => hr) "<".data (by decide)).2

end Sage
